import Mathlib

/-!
Verification of the stage classification / plan trimming core (`syzygy/plan.py`)
and of the cache-backed quorum coordinator (`syzygy/quorum/backends/cache.py`)
of django-syzygy, via a shallow embedding in Lean.

Conventions of the embedding:
* Python exceptions become `Except` values; the exception classes
  `AmbiguousStage`, `AmbiguousPlan` (from `syzygy/exceptions.py`, absent from
  the source tree, modelled from the spec's error taxonomy) and Python's
  `ValueError` become constructors of `Err`, carrying the message string.
* `Stage` is modelled from the spec (`constants.py` is absent from the source
  tree): an enumeration with members `PRE_DEPLOY` and `POST_DEPLOY`; both
  members are truthy values, so Python's `x or y` on optional stages is
  `firstSome`.
* An operation's duck-typed `reduce(other, app_label) is True` capability is an
  external collaborator (spec section 6); it is passed to `partition_operations`
  as an oracle `red : Operation → Operation → String → Bool` returning whether
  the call returns exactly `True`.
* Django's cache is the spec's shared counter store: an association list from
  keys to integers with add-if-absent / increment / decrement / get / delete,
  where increment and decrement on a missing key raise `ValueError` and
  comparing a missing value (`None`) with `<=` raises `TypeError`.
-/

/-- Modelled from the spec: deployment stage enumeration of `syzygy/constants.py`
(the file is absent from the source tree); members `PRE_DEPLOY` and
`POST_DEPLOY`. -/
inductive Stage where
  | preDeploy
  | postDeploy
deriving DecidableEq

/-- Raw value carried by an operation's optional `stage` attribute before the
`Stage(...)` coercion performed by `get_operation_stage`; `invalid` stands for
any value that is not a member of the `Stage` enumeration. -/
inductive StageAttr where
  | pre
  | post
  | invalid
deriving DecidableEq

/-- Concrete operation classes relevant to `get_operation_stage`'s
`isinstance(operation, (DeleteModel, RemoveField))` check; every other operation
class is collapsed into `otherOp` with a tag distinguishing kinds. -/
inductive OpKind where
  | deleteModel
  | removeField
  | createModel
  | addField
  | otherOp (tag : Nat)
deriving DecidableEq

/-- Schema-change operation as consumed by `syzygy/plan.py`: an optional
explicit `stage` attribute and the concrete class used by the heuristic.
`opId` identifies the operation so that a `reduce` oracle can distinguish
otherwise equal operations. -/
structure Operation where
  opId : Nat
  kind : OpKind
  stageAttr : Option StageAttr
deriving DecidableEq

/-- Migration as consumed by `syzygy/plan.py`: `app_label`, `name`, optional
explicit `stage` attribute, ordered operations and dependency keys
`(app_label, name)`. -/
structure Migration where
  app_label : String
  name : String
  stage : Option Stage
  operations : List Operation
  dependencies : List (String × String)
deriving DecidableEq

/-- Django's `str(migration)`: `f"{migration.app_label}.{migration.name}"`. -/
def migrationStr (m : Migration) : String :=
  m.app_label ++ "." ++ m.name

/-- Configuration surface read by `syzygy/conf.py`: the
`MIGRATION_STAGES_OVERRIDE` and `MIGRATION_STAGES_FALLBACK` mappings, plus the
app registry used by `conf.is_third_party_app` (`none` models
`apps.get_app_config` raising `LookupError`). -/
structure Conf where
  override : List (String × Stage)
  fallback : List (String × Stage)
  thirdParty : List (String × Bool)

/-- Error taxonomy: `AmbiguousStage` and `AmbiguousPlan` from
`syzygy/exceptions.py` (absent from the source tree, modelled from the spec's
error taxonomy) with their messages, and Python's built-in `ValueError` and
`TypeError`. -/
inductive Err where
  | ambiguousStage (msg : String)
  | ambiguousPlan (msg : String)
  | valueError
deriving DecidableEq

instance {ε α : Type} [DecidableEq ε] [DecidableEq α] : DecidableEq (Except ε α) :=
  fun a b =>
    match a, b with
    | .ok x, .ok y =>
      if h : x = y then .isTrue (by rw [h]) else .isFalse (by simp [h])
    | .ok _, .error _ => .isFalse (by simp)
    | .error _, .ok _ => .isFalse (by simp)
    | .error x, .error y =>
      if h : x = y then .isTrue (by rw [h]) else .isFalse (by simp [h])

/-- Python's `x or y` on optional truthy values (both `Stage` members are
truthy strings). -/
def firstSome {α : Type} (a b : Option α) : Option α :=
  match a with
  | some x => some x
  | none => b

/-- Dictionary `.get` on a string-keyed mapping. -/
def slook (m : List (String × Stage)) (k : String) : Option Stage :=
  match m with
  | [] => none
  | (k2, v) :: rest => if k = k2 then some v else slook rest k

/-- Boolean-valued registry lookup for `is_third_party_app`. -/
def blook (m : List (String × Bool)) (k : String) : Option Bool :=
  match m with
  | [] => none
  | (k2, v) :: rest => if k = k2 then some v else blook rest k

/-- The `Stage(stage)` coercion: members map to themselves, any other value
raises `ValueError`. -/
def coerceStage : StageAttr → Except Err Stage
  | .pre => .ok .preDeploy
  | .post => .ok .postDeploy
  | .invalid => .error .valueError

/-- `get_operation_stage` from `syzygy/plan.py`: explicit `stage` attribute
first (coerced), otherwise `POST_DEPLOY` for `DeleteModel` / `RemoveField`
instances and `PRE_DEPLOY` for everything else. -/
def get_operation_stage (op : Operation) : Except Err Stage :=
  match op.stageAttr with
  | some a => coerceStage a
  | none =>
    match op.kind with
    | .deleteModel => .ok .postDeploy
    | .removeField => .ok .postDeploy
    | _ => .ok .preDeploy

/-- Message of the `AmbiguousStage` raised by `partition_operations`. -/
def partitionAmbiguousMsg : String :=
  "Post-deployment operations cannot be followed by pre-deployments operations"

/-- Loop of `partition_operations`: `pre` and `post` are the two buckets of
`stage_operations` accumulated so far. -/
def partitionAux (red : Operation → Operation → String → Bool) (label : String) :
    List Operation → List Operation → List Operation →
    Except Err (List Operation × List Operation)
  | [], pre, post => .ok (pre, post)
  | op :: rest, pre, post =>
    match get_operation_stage op with
    | .error e => .error e
    | .ok st =>
      if st = Stage.preDeploy ∧ post ≠ [] then
        if post.all (fun p => red p op label) then
          partitionAux red label rest (pre ++ [op]) post
        else
          .error (.ambiguousStage partitionAmbiguousMsg)
      else
        match st with
        | .preDeploy => partitionAux red label rest (pre ++ [op]) post
        | .postDeploy => partitionAux red label rest pre (post ++ [op])

/-- `partition_operations` from `syzygy/plan.py`, parameterised by the external
`reduce` oracle. -/
def partition_operations (red : Operation → Operation → String → Bool)
    (operations : List Operation) (app_label : String) :
    Except Err (List Operation × List Operation) :=
  partitionAux red app_label operations [] []

/-- Two-key lookup shared by `_get_migration_stage_override` and
`_get_migration_stage_fallback`: `m.get(f"{app_label}.{name}") or
m.get(app_label)`. -/
def stageLookup (m : List (String × Stage)) (mig : Migration) : Option Stage :=
  firstSome (slook m (mig.app_label ++ "." ++ mig.name)) (slook m mig.app_label)

/-- `_get_defined_stage` from `syzygy/plan.py`: explicit attribute or
configured override. -/
def _get_defined_stage (conf : Conf) (mig : Migration) : Option Stage :=
  firstSome mig.stage (stageLookup conf.override mig)

/-- Message of the `AmbiguousStage` raised by `get_migration_stage`. -/
def ambiguousStageMsg (mig : Migration) : String :=
  "Cannot automatically determine stage of " ++ migrationStr mig ++ "."

/-- Inference loop of `get_migration_stage`: `st` is the running `stage`
variable; on the first disagreeing operation the configured fallback is used
(then the loop breaks) or `AmbiguousStage` is raised. -/
def inferStage (conf : Conf) (mig : Migration) :
    List Operation → Option Stage → Except Err (Option Stage)
  | [], st => .ok st
  | op :: rest, st =>
    match get_operation_stage op with
    | .error e => .error e
    | .ok os =>
      match st with
      | none => inferStage conf mig rest (some os)
      | some s =>
        if os = s then
          inferStage conf mig rest (some s)
        else
          match stageLookup conf.fallback mig with
          | some fb => .ok (some fb)
          | none => .error (.ambiguousStage (ambiguousStageMsg mig))

/-- `get_migration_stage` from `syzygy/plan.py`. -/
def get_migration_stage (conf : Conf) (mig : Migration) : Except Err (Option Stage) :=
  match _get_defined_stage conf mig with
  | some s => .ok (some s)
  | none => inferStage conf mig mig.operations none

/-- `must_post_deploy_migration` from `syzygy/plan.py`. -/
def must_post_deploy_migration (conf : Conf) (mig : Migration) (backward : Bool) :
    Except Err (Option Bool) :=
  match get_migration_stage conf mig with
  | .error e => .error e
  | .ok none => .ok none
  | .ok (some .preDeploy) => .ok (some backward)
  | .ok (some .postDeploy) => .ok (some !backward)

/-- Lookup in the `post_deploy_plan` dict keyed by `(app_label, name)`; Python
dict assignment is modelled by consing, so lookup finds the latest binding. -/
def mlook (d : List ((String × String) × Migration)) (k : String × String) :
    Option Migration :=
  match d with
  | [] => none
  | (k2, v) :: rest => if k = k2 then some v else mlook rest k

/-- The `next((post_deploy_plan[dependency] for dependency in
migration.dependencies if dependency in post_deploy_plan), None)` expression:
first dependency of `mig` that is a pending post-deploy migration. -/
def findPostDep (post : List ((String × String) × Migration)) (mig : Migration) :
    Option Migration :=
  List.findSome? (fun d => mlook post d) mig.dependencies

/-- Python's single-quote character, used by `repr` on strings. -/
def pyQuote : String := (Char.ofNat 39).toString

/-- Python `repr` of a migration-name string (names hold no quotes or escapes,
so `repr` wraps the string in single quotes). -/
def strRepr (s : String) : String := pyQuote ++ s ++ pyQuote

/-- Python `" or ".join`. -/
def joinOr : List String → String
  | [] => ""
  | [x] => x
  | x :: y :: rest => x ++ " or " ++ joinOr (y :: rest)

/-- `conf.is_third_party_app` applied to `apps.get_app_config(label)`: a label
absent from the registry models `LookupError` (treated as first-party by the
diagnostic code). -/
def isThird (conf : Conf) (label : String) : Bool :=
  (blook conf.thirdParty label).getD false

/-- The `inferred` list accumulated by `get_pre_deploy_plan`'s diagnostic code:
the conflicting migration first, then its post-deploy dependency, each included
when its stage is not defined. -/
def inferredList (conf : Conf) (mig dep : Migration) : List Migration :=
  (if (_get_defined_stage conf mig).isSome then [] else [mig]) ++
    (if (_get_defined_stage conf dep).isSome then [] else [dep])

/-- Origin word used by the diagnostic: `"defined"` for an explicit attribute or
configured override, `"inferred"` otherwise. -/
def originWord (conf : Conf) (m : Migration) : String :=
  if (_get_defined_stage conf m).isSome then "defined" else "inferred"

/-- Leading sentence of the `AmbiguousPlan` diagnostic. -/
def ambiguousPlanBase (conf : Conf) (mig dep : Migration) : String :=
  "Plan contains a non-contiguous sequence of pre-deployment migrations. Migration "
    ++ migrationStr mig ++ " is " ++ originWord conf mig
    ++ " to be applied pre-deployment" ++ " but it depends on "
    ++ migrationStr dep ++ " which is " ++ originWord conf dep
    ++ " to be applied post-deployment."

/-- The `first_party_inferred` list of `str(migration)` names. -/
def firstsOf (conf : Conf) (mig dep : Migration) : List String :=
  ((inferredList conf mig dep).filter (fun m => !(isThird conf m.app_label))).map
    migrationStr

/-- The `third_party_inferred` list of `str(migration)` names. -/
def thirdsOf (conf : Conf) (mig dep : Migration) : List String :=
  ((inferredList conf mig dep).filter (fun m => isThird conf m.app_label)).map
    migrationStr

/-- Literal introducing the first-party recommendation. -/
def recFirstStr : String :=
  " Defining an explicit `Migration.stage: syzygy.Stage` for "

/-- One `MIGRATION_STAGES_OVERRIDE[{name!r}]` item of the third-party
recommendation. -/
def overrideItem (n : String) : String :=
  "`MIGRATION_STAGES_OVERRIDE[" ++ strRepr n ++ "]`"

/-- Literal key of the third-party recommendation. -/
def overrideKeyStr : String := "`MIGRATION_STAGES_OVERRIDE["

/-- Literal closing the diagnostic. -/
def bypassStr : String := "to bypass inference might help."

/-- Diagnostic after the `if first_party_inferred:` step. -/
def ambiguousPlanMsg1 (conf : Conf) (mig dep : Migration) : String :=
  if (firstsOf conf mig dep).isEmpty then ambiguousPlanBase conf mig dep
  else
    ambiguousPlanBase conf mig dep ++ recFirstStr
      ++ joinOr (firstsOf conf mig dep) ++ " "

/-- Diagnostic after the `if third_party_inferred:` step. -/
def ambiguousPlanMsg2 (conf : Conf) (mig dep : Migration) : String :=
  if (thirdsOf conf mig dep).isEmpty then ambiguousPlanMsg1 conf mig dep
  else
    (if (firstsOf conf mig dep).isEmpty then ambiguousPlanMsg1 conf mig dep ++ " Setting "
      else ambiguousPlanMsg1 conf mig dep ++ "or setting ")
      ++ joinOr ((thirdsOf conf mig dep).map overrideItem)
      ++ " to an explicit `syzygy.Stage` "

/-- Diagnostic message of the `AmbiguousPlan` raised by `get_pre_deploy_plan`:
the base sentence, then, when at least one stage was inferred, the explicit
`Migration.stage` recommendation for first-party migrations and the
`MIGRATION_STAGES_OVERRIDE` recommendation for third-party ones. -/
def ambiguousPlanMsg (conf : Conf) (mig dep : Migration) : String :=
  if (inferredList conf mig dep).isEmpty then ambiguousPlanBase conf mig dep
  else ambiguousPlanMsg2 conf mig dep ++ bypassStr

/-- Loop of `get_pre_deploy_plan`: `pre` is the trimmed plan accumulated so
far, `post` the pending post-deploy dict. The Python `if post_deploy_plan:`
guard is elided: `findPostDep` on an empty dict is `none` anyway. -/
def preDeployAux (conf : Conf) :
    List (Migration × Bool) → List (Migration × Bool) →
    List ((String × String) × Migration) → Except Err (List (Migration × Bool))
  | [], pre, _ => .ok pre
  | (mig, backward) :: rest, pre, post =>
    match must_post_deploy_migration conf mig backward with
    | .error e => .error e
    | .ok r =>
      if r = some true then
        preDeployAux conf rest pre (((mig.app_label, mig.name), mig) :: post)
      else
        match findPostDep post mig with
        | some dep => .error (.ambiguousPlan (ambiguousPlanMsg conf mig dep))
        | none => preDeployAux conf rest (pre ++ [(mig, backward)]) post

/-- `get_pre_deploy_plan` from `syzygy/plan.py`. -/
def get_pre_deploy_plan (conf : Conf) (plan : List (Migration × Bool)) :
    Except Err (List (Migration × Bool)) :=
  preDeployAux conf plan [] []

/-- Walk of the claim's precondition: `true` when some entry eligible for the
pre-deploy prefix has a direct dependency on an earlier entry that must run
post-deploy. -/
def planConflictAux (conf : Conf) :
    List (Migration × Bool) → List ((String × String) × Migration) → Bool
  | [], _ => false
  | (mig, backward) :: rest, post =>
    match must_post_deploy_migration conf mig backward with
    | .ok (some true) => planConflictAux conf rest (((mig.app_label, mig.name), mig) :: post)
    | _ =>
      if (findPostDep post mig).isSome then true
      else planConflictAux conf rest post

/-- Dependency-conflict predicate over a whole plan. -/
def planConflict (conf : Conf) (plan : List (Migration × Bool)) : Bool :=
  planConflictAux conf plan []

/-- Whether an `Except` computation succeeded. -/
def exOk {ε α : Type} : Except ε α → Bool
  | .ok _ => true
  | .error _ => false

/-- Python `str(backward)` for the direction flag. -/
def boolStr (b : Bool) : String := if b then "True" else "False"

/-- One `f"{migration}:{backward}"` element of the plan hash. -/
def planEntryStr (e : Migration × Bool) : String :=
  migrationStr e.1 ++ ":" ++ boolStr e.2

/-- Python `";".join`. -/
def joinSemicolon : List String → String
  | [] => ""
  | [x] => x
  | x :: y :: rest => x ++ ";" ++ joinSemicolon (y :: rest)

/-- The string fed to `hashlib.sha1` by `hash_plan`. -/
def planEncoding (plan : List (Migration × Bool)) : String :=
  joinSemicolon (plan.map planEntryStr)

/-- `hash_plan` from `syzygy/plan.py`, parameterised by the external digest
function `h` standing for `hashlib.sha1(...).hexdigest()` (collision-freeness
of the digest is the injectivity hypothesis of the theorems). -/
def hash_plan (h : String → String) (plan : List (Migration × Bool)) : String :=
  h (planEncoding plan)

/-- Identity of a plan entry as far as `hash_plan` is concerned: the migration
identity `(app_label, name)` and the direction flag. -/
def entryIdent (e : Migration × Bool) : (String × String) × Bool :=
  ((e.1.app_label, e.1.name), e.2)

/-- Well-formedness of a migration's identifiers for the hash-injectivity
analysis: Python identifiers hold no separator characters. -/
def migOk (m : Migration) : Prop :=
  (';' ∉ m.app_label.data ∧ ':' ∉ m.app_label.data ∧ '.' ∉ m.app_label.data) ∧
    (';' ∉ m.name.data ∧ ':' ∉ m.name.data)

instance (m : Migration) : Decidable (migOk m) := by
  unfold migOk
  infer_instance

/-- Whether `pat` occurs at the head of `s` (character lists). -/
def leadsWith : List Char → List Char → Bool
  | [], _ => true
  | _ :: _, [] => false
  | a :: as, b :: bs => a == b && leadsWith as bs

/-- Whether `pat` occurs contiguously anywhere inside `s` (character lists):
used to state that a diagnostic message names a migration or contains a
recommendation. -/
def hasSeg (pat : List Char) : List Char → Bool
  | [] => leadsWith pat []
  | s@(_ :: rest) => leadsWith pat s || hasSeg pat rest

namespace CacheQuorum

/-- Shared counter store (Django cache restricted to the integer counters used
by `CacheQuorum`), as an association list from keys to values. -/
abbrev Store := List (String × Int)

/-- Cache `get`: `none` models a missing key (Python `None`). -/
def sget (s : Store) (k : String) : Option Int :=
  match s with
  | [] => none
  | (k2, v) :: rest => if k = k2 then some v else sget rest k

/-- Unconditional write used to implement the other primitives. -/
def sset (s : Store) (k : String) (v : Int) : Store :=
  match s with
  | [] => [(k, v)]
  | (k2, w) :: rest => if k = k2 then (k2, v) :: rest else (k2, w) :: sset rest k v

/-- Cache `add`: create-if-absent. -/
def sadd (s : Store) (k : String) (v : Int) : Store :=
  match sget s k with
  | some _ => s
  | none => sset s k v

/-- Cache `incr` / `decr` by `delta`: returns the new value, `none` models the
`ValueError` Django raises for a missing key. -/
def sincr (s : Store) (k : String) (delta : Int) : Option (Int × Store) :=
  match sget s k with
  | none => none
  | some v => some (v + delta, sset s k (v + delta))

/-- Cache `delete_many` over the two keys of `_get_namespace_keys`. -/
def sdelPair (s : Store) (k1 k2 : String) : Store :=
  match s with
  | [] => []
  | (k, v) :: rest =>
    if k = k1 ∨ k = k2 then sdelPair rest k1 k2 else (k, v) :: sdelPair rest k1 k2

/-- Exceptions surfacing from `CacheQuorum` methods: Django's `ValueError` on
`incr`/`decr` of a missing key, Python's `TypeError` on ordering `None` against
an int, and `QuorumDisolved` from `syzygy/exceptions.py` (absent from the
source tree, modelled from the spec's error taxonomy). -/
inductive QErr where
  | valueError
  | typeError
  | quorumDisolved
deriving DecidableEq

/-- `namespace_key_format.format(namespace=namespace)`. -/
def nsKey (ns : String) : String := "syzygy-quorum:" ++ ns

/-- The auxiliary clear-countdown key of `_get_namespace_keys`. -/
def clearKey (ns : String) : String := nsKey ns ++ ":clear"

/-- `CacheQuorum.join`: seed both counters if absent, atomically increment the
namespace counter, report whether this call reached the quorum. The store is
returned alongside the outcome since cache mutations persist even when an
exception is raised. -/
def join (s : Store) (ns : String) (q : Int) : Except QErr Bool × Store :=
  let s1 := sadd s (nsKey ns) 0
  let s2 := sadd s1 (clearKey ns) (q - 1)
  match sincr s2 (nsKey ns) 1 with
  | none => (.error .valueError, s2)
  | some (current, s3) => (.ok (current == q), s3)

/-- `CacheQuorum.sever`: seed the namespace counter if absent and decrement it
by the whole quorum. -/
def sever (s : Store) (ns : String) (q : Int) : Except QErr Unit × Store :=
  let s1 := sadd s (nsKey ns) 0
  match sincr s1 (nsKey ns) (-q) with
  | none => (.error .valueError, s1)
  | some (_, s2) => (.ok (), s2)

/-- `CacheQuorum.poll`. A missing namespace counter is Python `None`: the
`current == quorum` comparison is `False` and `current <= 0` raises
`TypeError`, which the `none` branch models. In the `current == quorum` and
`current <= 0` branches the clear countdown is decremented and, when it
reaches zero, `_clear` deletes both keys; the decrement itself raises
`ValueError` when the clear key is missing. -/
def poll (s : Store) (ns : String) (q : Int) : Except QErr Bool × Store :=
  match sget s (nsKey ns) with
  | some current =>
    if current = q then
      match sincr s (clearKey ns) (-1) with
      | none => (.error .valueError, s)
      | some (v, s2) =>
        (.ok true, if v = 0 then sdelPair s2 (nsKey ns) (clearKey ns) else s2)
    else if current ≤ 0 then
      match sincr s (clearKey ns) (-1) with
      | none => (.error .valueError, s)
      | some (v, s2) =>
        (.error .quorumDisolved, if v = 0 then sdelPair s2 (nsKey ns) (clearKey ns) else s2)
    else (.ok false, s)
  | none => (.error .typeError, s)

/-- Run `n` successive `join` calls, collecting each call's outcome. -/
def runJoins (s : Store) (ns : String) (q : Int) : Nat → List (Except QErr Bool) × Store
  | 0 => ([], s)
  | n + 1 =>
    let p := join s ns q
    let rest := runJoins p.2 ns q n
    (p.1 :: rest.1, rest.2)

/-- Run `n` successive `poll` calls, collecting each call's outcome. -/
def runPolls (s : Store) (ns : String) (q : Int) : Nat → List (Except QErr Bool) × Store
  | 0 => ([], s)
  | n + 1 =>
    let p := poll s ns q
    let rest := runPolls p.2 ns q n
    (p.1 :: rest.1, rest.2)

/-- A namespace counter that is missing or nonpositive: the situation after a
sever with fewer than `quorum` total joins. -/
def badCounter (s : Store) (ns : String) : Prop :=
  sget s (nsKey ns) = none ∨ ∃ c, sget s (nsKey ns) = some c ∧ c ≤ 0

theorem keys_ne (ns : String) : nsKey ns ≠ clearKey ns := by
  intro h
  have hd : (nsKey ns).data = (nsKey ns).data ++ (":clear" : String).data := by
    conv_lhs => rw [h]
    rfl
  have : ((":clear" : String).data : List Char) = [] :=
    (List.self_eq_append_right.mp hd)
  simp at this

theorem join_fresh (ns : String) (q : Int) :
    join [] ns q = (.ok ((1 : Int) == q), [(nsKey ns, 1), (clearKey ns, q - 1)]) := by
  have h := keys_ne ns
  simp [join, sadd, sget, sincr, sset, h, h.symm]

theorem join_step (ns : String) (q c t : Int) :
    join [(nsKey ns, c), (clearKey ns, t)] ns q
      = (.ok (c + 1 == q), [(nsKey ns, c + 1), (clearKey ns, t)]) := by
  have h := keys_ne ns
  simp [join, sadd, sget, sincr, sset, h, h.symm]

theorem runJoins_closed (ns : String) (q : Int) :
    ∀ (m : Nat) (c t : Int),
      runJoins [(nsKey ns, c), (clearKey ns, t)] ns q m
        = ((List.range m).map (fun i => .ok ((c + i + 1 : Int) == q)),
            [(nsKey ns, c + m), (clearKey ns, t)])
  | 0, c, t => by simp [runJoins]
  | m + 1, c, t => by
    have ih := runJoins_closed ns q m (c + 1) t
    simp only [runJoins, join_step]
    rw [ih]
    simp only [Prod.mk.injEq]
    refine ⟨?_, ?_⟩
    · rw [List.range_succ_eq_map, List.map_cons, List.map_map]
      refine congrArg₂ List.cons (by norm_num) ?_
      refine congrArg₂ List.map (funext fun i => ?_) rfl
      simp only [Function.comp]
      refine congrArg Except.ok ?_
      refine congrArg₂ BEq.beq ?_ rfl
      push_cast
      ring
    · have h3 : (c + 1 + (m : Int)) = c + ↑(m + 1) := by push_cast; ring
      rw [h3]

theorem runJoins_fresh (ns : String) (q : Int) (m : Nat) (hm : 1 ≤ m) :
    runJoins [] ns q m
      = ((List.range m).map (fun i => .ok ((i + 1 : Int) == q)),
          [(nsKey ns, (m : Int)), (clearKey ns, q - 1)]) := by
  obtain ⟨m', rfl⟩ : ∃ m', m = m' + 1 := ⟨m - 1, by omega⟩
  simp only [runJoins, join_fresh]
  rw [runJoins_closed ns q m' 1 (q - 1)]
  simp only [Prod.mk.injEq]
  refine ⟨?_, ?_⟩
  · rw [List.range_succ_eq_map, List.map_cons, List.map_map]
    refine congrArg₂ List.cons (by norm_num) ?_
    refine congrArg₂ List.map (funext fun i => ?_) rfl
    simp only [Function.comp]
    refine congrArg Except.ok ?_
    refine congrArg₂ BEq.beq ?_ rfl
    push_cast
    ring
  · have h3 : (1 + (m' : Int)) = ((m' + 1 : Nat) : Int) := by push_cast; ring
    rw [h3]

theorem sget_sset (s : Store) (k k2 : String) (v : Int) :
    sget (sset s k v) k2 = if k2 = k then some v else sget s k2 := by
  induction s with
  | nil => simp [sset, sget]
  | cons hd tl ih =>
    obtain ⟨a, b⟩ := hd
    simp only [sset]
    by_cases hka : k = a
    · subst hka
      simp only [if_pos rfl, sget]
      by_cases hk2 : k2 = k <;> simp [hk2]
    · rw [if_neg hka]
      simp only [sget, ih]
      by_cases h1 : k2 = a
      · subst h1
        have hne : ¬ k2 = k := fun hh => hka hh.symm
        simp [hne]
      · simp [h1]

theorem sget_sdelPair (s : Store) (k1 k2 x : String) :
    sget (sdelPair s k1 k2) x = if x = k1 ∨ x = k2 then none else sget s x := by
  induction s with
  | nil => simp [sdelPair, sget]
  | cons hd tl ih =>
    obtain ⟨a, b⟩ := hd
    simp only [sdelPair]
    by_cases ha : a = k1 ∨ a = k2
    · rw [if_pos ha, ih]
      by_cases hx : x = k1 ∨ x = k2
      · simp [hx]
      · have hxa : ¬ x = a := by
          rintro rfl
          exact hx ha
        simp [sget, hx, hxa]
    · rw [if_neg ha]
      simp only [sget, ih]
      by_cases hxa : x = a
      · subst hxa
        simp [ha]
      · simp [hxa]

theorem sever_step (ns : String) (q c t : Int) :
    sever [(nsKey ns, c), (clearKey ns, t)] ns q
      = (.ok (), [(nsKey ns, c - q), (clearKey ns, t)]) := by
  have h := keys_ne ns
  simp [sever, sadd, sget, sincr, sset, h, h.symm, sub_eq_add_neg]

theorem poll_step_qd (ns : String) (q c t : Int) (hcq : c ≠ q) (hc : c ≤ 0) :
    poll [(nsKey ns, c), (clearKey ns, t)] ns q
      = (.error .quorumDisolved,
          if t - 1 = 0 then [] else [(nsKey ns, c), (clearKey ns, t - 1)]) := by
  have h := keys_ne ns
  by_cases ht : t - 1 = 0
  · have ht' : t + (-1) = 0 := by omega
    simp [poll, sget, sincr, sset, sdelPair, h, h.symm, hcq, hc, ht, ht']
  · have ht' : ¬ t + (-1) = 0 := by omega
    simp [poll, sget, sincr, sset, h, h.symm, hcq, hc, ht, ht', sub_eq_add_neg]

theorem poll_step_true (ns : String) (q t : Int) :
    poll [(nsKey ns, q), (clearKey ns, t)] ns q
      = (.ok true,
          if t - 1 = 0 then [] else [(nsKey ns, q), (clearKey ns, t - 1)]) := by
  have h := keys_ne ns
  by_cases ht : t - 1 = 0
  · have ht' : t + (-1) = 0 := by omega
    simp [poll, sget, sincr, sset, sdelPair, h, h.symm, ht, ht']
  · have ht' : ¬ t + (-1) = 0 := by omega
    simp [poll, sget, sincr, sset, h, h.symm, ht, ht', sub_eq_add_neg]

theorem runPolls_qd (ns : String) (q : Int) :
    ∀ (m : Nat) (c t : Int), c ≠ q → c ≤ 0 → (m : Int) ≤ t →
      (runPolls [(nsKey ns, c), (clearKey ns, t)] ns q m).1
        = List.replicate m (.error .quorumDisolved)
  | 0, c, t, _, _, _ => by simp [runPolls]
  | m + 1, c, t, hcq, hc, hmt => by
    simp only [runPolls, poll_step_qd ns q c t hcq hc]
    by_cases ht : t - 1 = 0
    · have hm0 : m = 0 := by omega
      subst hm0
      simp [ht, runPolls, List.replicate]
    · rw [if_neg ht]
      have ih := runPolls_qd ns q m c (t - 1) hcq hc (by omega)
      simp [ih, List.replicate]

theorem runPolls_true (ns : String) (q : Int) :
    ∀ (m : Nat) (t : Int), 1 ≤ m → t = (m : Int) →
      runPolls [(nsKey ns, q), (clearKey ns, t)] ns q m
        = (List.replicate m (.ok true), [])
  | 0, t, hm, _ => by omega
  | m + 1, t, _, ht => by
    simp only [runPolls, poll_step_true ns q t]
    by_cases htz : t - 1 = 0
    · have hm0 : m = 0 := by omega
      subst hm0
      simp [htz, runPolls, List.replicate]
    · rw [if_neg htz]
      have hm1 : 1 ≤ m := by omega
      have ih := runPolls_true ns q m (t - 1) hm1 (by omega)
      simp [ih, List.replicate]

theorem poll_bad_step (s : Store) (ns : String) (q : Int) (hq : 1 ≤ q)
    (hb : badCounter s ns) :
    (poll s ns q).1 ≠ Except.ok true ∧ badCounter (poll s ns q).2 ns := by
  have h := keys_ne ns
  rcases hb with hnone | ⟨c, hc, hc0⟩
  · unfold poll
    rw [hnone]
    exact ⟨by simp, Or.inl hnone⟩
  · unfold poll
    rw [hc]
    have hcq : ¬ c = q := by omega
    dsimp only
    rw [if_neg hcq, if_pos hc0]
    cases hsg : sget s (clearKey ns) with
    | none =>
      simp only [sincr, hsg]
      exact ⟨by simp, Or.inr ⟨c, hc, hc0⟩⟩
    | some v =>
      simp only [sincr, hsg]
      refine ⟨by simp, ?_⟩
      by_cases hv : v + (-1) = 0
      · rw [if_pos hv]
        exact Or.inl (by rw [sget_sdelPair]; simp)
      · rw [if_neg hv]
        refine Or.inr ⟨c, ?_, hc0⟩
        rw [sget_sset, if_neg h]
        exact hc

theorem runPolls_not_true (ns : String) (q : Int) (hq : 1 ≤ q) :
    ∀ (m : Nat) (s : Store), badCounter s ns →
      Except.ok true ∉ (runPolls s ns q m).1
  | 0, s, _ => by simp [runPolls]
  | m + 1, s, hb => by
    have hstep := poll_bad_step s ns q hq hb
    have ih := runPolls_not_true ns q hq m (poll s ns q).2 hstep.2
    simp only [runPolls, List.mem_cons]
    rintro (heq | hmem)
    · exact hstep.1 heq.symm
    · exact ih hmem

end CacheQuorum



/-- C5: on a fresh namespace with quorum `n`, across a sequence of `n` `join`
calls with no sever, the call whose increment brings the shared counter to `n`
(the `i`-th call sees counter value `i + 1`) returns `true` and every other
call returns `false`: exactly one caller wins. -/
theorem C5_join_exactly_one_winner (ns : String) (n : Nat) (h : 1 ≤ n) :
    ((CacheQuorum.runJoins [] ns (n : Int) n).1.length = n)
    ∧ ∀ (i : Nat), ∀ _hi : i < (CacheQuorum.runJoins [] ns (n : Int) n).1.length,
        (CacheQuorum.runJoins [] ns (n : Int) n).1[i]
          = Except.ok (decide (i + 1 = n)) := by
  have hr := CacheQuorum.runJoins_fresh ns (n : Int) n h
  rw [hr]
  refine ⟨by simp, ?_⟩
  intro i hi
  simp only [List.length_map, List.length_range] at hi
  rw [List.getElem_map, List.getElem_range]
  refine congrArg Except.ok ?_
  by_cases hp : i + 1 = n
  · have : ((i : Int) + 1) = (n : Int) := by omega
    simp [hp, this]
  · have : ¬ ((i : Int) + 1) = (n : Int) := by omega
    simp [hp, this]

/-- C5 witness: quorum three on a concrete namespace. -/
theorem C5_join_exactly_one_winner_witness :
    1 ≤ 3
    ∧ (((CacheQuorum.runJoins [] "db" (3 : Int) 3).1.length = 3)
        ∧ ∀ (i : Nat), ∀ _hi : i < (CacheQuorum.runJoins [] "db" (3 : Int) 3).1.length,
            (CacheQuorum.runJoins [] "db" (3 : Int) 3).1[i]
              = Except.ok (decide (i + 1 = 3))) :=
  ⟨by decide, C5_join_exactly_one_winner "db" 3 (by decide)⟩

/-- C6: after at least one and at most `quorum - 1` joins on a fresh namespace,
a sever makes every subsequent poll of the up-to-`quorum - 1` polling parties
raise `QuorumDisolved`, and no poll on that namespace ever returns `true`
afterwards, however many polls are made. -/
theorem C6_sever_dissolves_polls (ns : String) (q : Int) (j m : Nat)
    (hj : 1 ≤ j) (hjq : (j : Int) ≤ q - 1) (hm : (m : Int) ≤ q - 1) :
    ((CacheQuorum.runPolls
        (CacheQuorum.sever (CacheQuorum.runJoins [] ns q j).2 ns q).2 ns q m).1
      = List.replicate m (Except.error CacheQuorum.QErr.quorumDisolved))
    ∧ ∀ (k : Nat),
        Except.ok true ∉ (CacheQuorum.runPolls
          (CacheQuorum.sever (CacheQuorum.runJoins [] ns q j).2 ns q).2 ns q k).1 := by
  have hq : 1 ≤ q := by omega
  have hr := CacheQuorum.runJoins_fresh ns q j hj
  rw [hr]
  rw [CacheQuorum.sever_step ns q (j : Int) (q - 1)]
  have hc0 : (j : Int) - q ≤ 0 := by omega
  have hcq : (j : Int) - q ≠ q := by omega
  constructor
  · exact CacheQuorum.runPolls_qd ns q m ((j : Int) - q) (q - 1) hcq hc0 hm
  · intro k
    refine CacheQuorum.runPolls_not_true ns q hq k _ ?_
    refine Or.inr ⟨(j : Int) - q, ?_, hc0⟩
    simp [CacheQuorum.sget]

/-- C6 witness: quorum three, two joiners, both of whose polls dissolve. -/
theorem C6_sever_dissolves_polls_witness :
    (1 ≤ 2 ∧ ((2 : Nat) : Int) ≤ 3 - 1 ∧ ((2 : Nat) : Int) ≤ 3 - 1)
    ∧ (((CacheQuorum.runPolls
          (CacheQuorum.sever (CacheQuorum.runJoins [] "db" 3 2).2 "db" 3).2 "db" 3 2).1
        = List.replicate 2 (Except.error CacheQuorum.QErr.quorumDisolved))
      ∧ ∀ (k : Nat),
          Except.ok true ∉ (CacheQuorum.runPolls
            (CacheQuorum.sever (CacheQuorum.runJoins [] "db" 3 2).2 "db" 3).2 "db" 3 k).1) :=
  ⟨⟨by decide, by decide, by decide⟩,
    C6_sever_dissolves_polls "db" 3 2 2 (by decide) (by decide) (by decide)⟩

/-- C7 counterexample: with quorum `1` the round has zero polling parties, yet
after the winning join the namespace keys are NOT deleted — the counter key
still holds `1` — and a subsequent `join` on the same namespace returns
`false` where a fresh namespace returns `true`: state leaks across rounds. -/
theorem C7_quorum_one_leak :
    ((CacheQuorum.runJoins [] "ns" 1 1).1 = [Except.ok true])
    ∧ CacheQuorum.sget (CacheQuorum.runJoins [] "ns" 1 1).2
        (CacheQuorum.nsKey "ns") = some 1
    ∧ (CacheQuorum.join (CacheQuorum.runJoins [] "ns" 1 1).2 "ns" 1).1
        = Except.ok false
    ∧ (CacheQuorum.join [] "ns" 1).1 = Except.ok true := by
  refine ⟨?_, ?_, ?_, ?_⟩ <;> decide

/-- C7 (amended to quorum at least two): once quorum is attained and each of
the `quorum - 1` polling parties observes the outcome, the clear countdown
seeded at `quorum - 1` drains, both counter keys are deleted, and the store is
exactly the fresh (empty) store again — a subsequent `join` on the same
namespace behaves as on a fresh namespace. -/
theorem C7_round_self_clearing (ns : String) (n : Nat) (h : 2 ≤ n) :
    ((CacheQuorum.runPolls (CacheQuorum.runJoins [] ns (n : Int) n).2
        ns (n : Int) (n - 1)).1
      = List.replicate (n - 1) (Except.ok true))
    ∧ (CacheQuorum.runPolls (CacheQuorum.runJoins [] ns (n : Int) n).2
        ns (n : Int) (n - 1)).2 = [] := by
  have hr := CacheQuorum.runJoins_fresh ns (n : Int) n (by omega)
  rw [hr]
  have hp := CacheQuorum.runPolls_true ns (n : Int) (n - 1) ((n : Int) - 1)
    (by omega) (by omega)
  rw [hp]
  exact ⟨rfl, rfl⟩

/-- C7 witness: quorum three on a concrete namespace. -/
theorem C7_round_self_clearing_witness :
    2 ≤ 3
    ∧ (((CacheQuorum.runPolls (CacheQuorum.runJoins [] "db" (3 : Int) 3).2
          "db" (3 : Int) (3 - 1)).1
        = List.replicate (3 - 1) (Except.ok true))
      ∧ (CacheQuorum.runPolls (CacheQuorum.runJoins [] "db" (3 : Int) 3).2
          "db" (3 : Int) (3 - 1)).2 = []) :=
  ⟨by decide, C7_round_self_clearing "db" 3 (by decide)⟩

/-- C10: polling a namespace whose counter key is absent from the store (never
joined, or already drained and cleared) neither returns `false` nor raises
`QuorumDisolved`: the missing value (`None`) compares unequal to the quorum and
ordering it against `0` is a `TypeError`, so `poll` presupposes a join in the
current round whose counters have not yet been cleared. -/
theorem C10_poll_missing_counter_type_error (s : CacheQuorum.Store) (ns : String)
    (q : Int) (h : CacheQuorum.sget s (CacheQuorum.nsKey ns) = none) :
    CacheQuorum.poll s ns q = (Except.error CacheQuorum.QErr.typeError, s)
    ∧ (CacheQuorum.poll s ns q).1 ≠ Except.ok false
    ∧ (CacheQuorum.poll s ns q).1 ≠ Except.error CacheQuorum.QErr.quorumDisolved := by
  have hp : CacheQuorum.poll s ns q = (Except.error CacheQuorum.QErr.typeError, s) := by
    unfold CacheQuorum.poll
    rw [h]
  exact ⟨hp, by rw [hp]; simp, by rw [hp]; simp⟩

/-- C10 witness: polling the empty store. -/
theorem C10_poll_missing_counter_type_error_witness :
    CacheQuorum.sget [] (CacheQuorum.nsKey "db") = none
    ∧ (CacheQuorum.poll [] "db" 2 = (Except.error CacheQuorum.QErr.typeError, [])
        ∧ (CacheQuorum.poll [] "db" 2).1 ≠ Except.ok false
        ∧ (CacheQuorum.poll [] "db" 2).1 ≠ Except.error CacheQuorum.QErr.quorumDisolved) :=
  ⟨rfl, C10_poll_missing_counter_type_error [] "db" 2 rfl⟩

/-- C8: `get_operation_stage` returns the operation's explicit stage marker
verbatim when present (coerced to `Stage`; an invalid marker value raises
`ValueError`); otherwise it returns `POST_DEPLOY` exactly for `DeleteModel`
and `RemoveField` operations and `PRE_DEPLOY` for every other operation
kind. -/
theorem C8_get_operation_stage_spec (op : Operation) :
    (op.stageAttr = some StageAttr.pre →
        get_operation_stage op = .ok Stage.preDeploy)
    ∧ (op.stageAttr = some StageAttr.post →
        get_operation_stage op = .ok Stage.postDeploy)
    ∧ (op.stageAttr = some StageAttr.invalid →
        get_operation_stage op = .error Err.valueError)
    ∧ (op.stageAttr = none →
        (get_operation_stage op = .ok Stage.postDeploy
          ↔ (op.kind = OpKind.deleteModel ∨ op.kind = OpKind.removeField)))
    ∧ (op.stageAttr = none →
        (get_operation_stage op = .ok Stage.preDeploy
          ↔ ¬ (op.kind = OpKind.deleteModel ∨ op.kind = OpKind.removeField))) := by
  obtain ⟨i, k, a⟩ := op
  refine ⟨?_, ?_, ?_, ?_, ?_⟩ <;> rintro rfl <;> cases k <;>
    simp [get_operation_stage, coerceStage]

/-- C8 witness: an implicit `DeleteModel` and an invalid explicit marker. -/
theorem C8_get_operation_stage_spec_witness :
    ((Operation.mk 0 OpKind.deleteModel none).stageAttr = none
      ∧ (get_operation_stage (Operation.mk 0 OpKind.deleteModel none)
            = .ok Stage.postDeploy
          ↔ ((Operation.mk 0 OpKind.deleteModel none).kind = OpKind.deleteModel
              ∨ (Operation.mk 0 OpKind.deleteModel none).kind = OpKind.removeField)))
    ∧ ((Operation.mk 1 OpKind.createModel (some StageAttr.invalid)).stageAttr
          = some StageAttr.invalid
      ∧ get_operation_stage (Operation.mk 1 OpKind.createModel (some StageAttr.invalid))
          = .error Err.valueError) :=
  ⟨⟨rfl, (C8_get_operation_stage_spec _).2.2.2.1 rfl⟩,
    ⟨rfl, (C8_get_operation_stage_spec _).2.2.1 rfl⟩⟩

theorem partitionAux_append (red : Operation → Operation → String → Bool)
    (label : String) :
    ∀ (xs ys : List Operation) (pre post : List Operation),
      partitionAux red label (xs ++ ys) pre post
        = match partitionAux red label xs pre post with
          | .error e => .error e
          | .ok (p, q) => partitionAux red label ys p q
  | [], ys, pre, post => by simp [partitionAux]
  | op :: xs, ys, pre, post => by
    simp only [List.cons_append, partitionAux]
    cases hst : get_operation_stage op with
    | error e => rfl
    | ok st =>
      dsimp only
      by_cases hc : st = Stage.preDeploy ∧ post ≠ []
      · rw [if_pos hc, if_pos hc]
        by_cases hall : (post.all (fun p => red p op label)) = true
        · rw [if_pos hall, if_pos hall]
          exact partitionAux_append red label xs ys (pre ++ [op]) post
        · rw [if_neg hall, if_neg hall]
      · rw [if_neg hc, if_neg hc]
        cases st with
        | preDeploy => exact partitionAux_append red label xs ys (pre ++ [op]) post
        | postDeploy => exact partitionAux_append red label xs ys pre (post ++ [op])

/-- C3 (amended): when a `PRE_DEPLOY`-classified operation is encountered after
post-deploy operations have been collected, it is appended to the pre-deploy
bucket (reordered ahead of the post-deploy operations in the result) if and
only if every collected post-deploy operation's `reduce` call against the
candidate agrees; a single refusal aborts the whole attempt with an
`AmbiguousStage` carrying the fixed message `partitionAmbiguousMsg`. -/
theorem C3_partition_commute_or_ambiguous
    (red : Operation → Operation → String → Bool) (label : String)
    (ops1 : List Operation) (op : Operation) (pre1 post1 : List Operation)
    (h1 : partition_operations red ops1 label = .ok (pre1, post1))
    (h2 : post1 ≠ [])
    (h3 : get_operation_stage op = .ok Stage.preDeploy) :
    partition_operations red (ops1 ++ [op]) label
      = if post1.all (fun p => red p op label)
          then .ok (pre1 ++ [op], post1)
          else .error (.ambiguousStage partitionAmbiguousMsg) := by
  unfold partition_operations at h1 ⊢
  rw [partitionAux_append, h1]
  by_cases hall : (post1.all (fun p => red p op label)) = true
  · simp [partitionAux, h3, h2, hall]
  · simp [partitionAux, h3, h2, hall]

/-- C3 witness: one post-deploy operation followed by a commuting pre-deploy
operation, which lands at the head of the pre-deploy bucket. -/
theorem C3_partition_commute_or_ambiguous_witness :
    (partition_operations (fun _ _ _ => true)
        [Operation.mk 0 OpKind.deleteModel none] "shop"
      = .ok ([], [Operation.mk 0 OpKind.deleteModel none])
    ∧ ([Operation.mk 0 OpKind.deleteModel none] : List Operation) ≠ []
    ∧ get_operation_stage (Operation.mk 1 OpKind.addField none) = .ok Stage.preDeploy)
    ∧ partition_operations (fun _ _ _ => true)
        ([Operation.mk 0 OpKind.deleteModel none] ++ [Operation.mk 1 OpKind.addField none])
        "shop"
      = if [Operation.mk 0 OpKind.deleteModel none].all
            (fun p => (fun (_ _ : Operation) (_ : String) => true) p
              (Operation.mk 1 OpKind.addField none) "shop")
          then .ok (([] : List Operation) ++ [Operation.mk 1 OpKind.addField none],
                    [Operation.mk 0 OpKind.deleteModel none])
          else .error (.ambiguousStage partitionAmbiguousMsg) :=
  ⟨⟨by decide, by decide, by decide⟩,
    C3_partition_commute_or_ambiguous (fun _ _ _ => true) "shop"
      [Operation.mk 0 OpKind.deleteModel none] (Operation.mk 1 OpKind.addField none)
      [] [Operation.mk 0 OpKind.deleteModel none] (by decide) (by decide) (by decide)⟩

/-- C3 counterexample: a refused commute raises `AmbiguousStage` whose carried
message is a fixed sentence that does not contain the owner id (`"shop"`), and
two conflicts with different owners and different conflicting operations raise
the very same error value, so the exception carries neither the owner id nor
the conflicting operation. -/
theorem C3_no_diagnostic_payload_counterexample :
    (partition_operations (fun _ _ _ => false)
        [Operation.mk 0 OpKind.deleteModel none, Operation.mk 1 OpKind.addField none]
        "shop"
      = .error (.ambiguousStage partitionAmbiguousMsg))
    ∧ hasSeg "shop".data partitionAmbiguousMsg.data = false
    ∧ partition_operations (fun _ _ _ => false)
        [Operation.mk 0 OpKind.deleteModel none, Operation.mk 1 OpKind.addField none]
        "shop"
      = partition_operations (fun _ _ _ => false)
        [Operation.mk 2 OpKind.removeField none, Operation.mk 3 OpKind.createModel none]
        "other" := by
  refine ⟨?_, ?_, ?_⟩ <;> decide

theorem leadsWith_self_append : ∀ (p t : List Char), leadsWith p (p ++ t) = true
  | [], _ => rfl
  | c :: p, t => by simp [leadsWith, leadsWith_self_append p t]

theorem leadsWith_append : ∀ (p s t : List Char),
    leadsWith p s = true → leadsWith p (s ++ t) = true
  | [], _, _, _ => rfl
  | _ :: _, [], _, h => by simp [leadsWith] at h
  | a :: p, b :: s, t, h => by
    simp only [leadsWith, Bool.and_eq_true, beq_iff_eq] at h
    simp [leadsWith, h.1, leadsWith_append p s t h.2]

theorem hasSeg_nil_pat : ∀ (s : List Char), hasSeg [] s = true
  | [] => rfl
  | _ :: _ => by simp [hasSeg, leadsWith]

theorem hasSeg_cons (c : Char) (p s : List Char) (h : hasSeg p s = true) :
    hasSeg p (c :: s) = true := by
  cases p with
  | nil => simp [hasSeg, leadsWith]
  | cons a as => simp [hasSeg, h]

theorem hasSeg_head : ∀ (p s : List Char), leadsWith p s = true → hasSeg p s = true
  | p, [], h => by
    cases p with
    | nil => rfl
    | cons a as => simp [leadsWith] at h
  | p, b :: rest, h => by simp [hasSeg, h]

theorem hasSeg_append_left : ∀ (p s t : List Char),
    hasSeg p s = true → hasSeg p (s ++ t) = true
  | p, [], t, h => by
    cases p with
    | nil => simpa using hasSeg_nil_pat t
    | cons a as => simp [hasSeg, leadsWith] at h
  | p, c :: s, t, h => by
    rcases Bool.or_eq_true_iff.mp (by simpa [hasSeg] using h) with h1 | h1
    · exact hasSeg_head p ((c :: s) ++ t) (leadsWith_append p (c :: s) t h1)
    · simpa [hasSeg] using Or.inr (hasSeg_append_left p s t h1)

theorem hasSeg_append_right : ∀ (p s t : List Char),
    hasSeg p t = true → hasSeg p (s ++ t) = true
  | _, [], _, h => h
  | p, c :: s, t, h => hasSeg_cons c p (s ++ t) (hasSeg_append_right p s t h)

theorem hasSeg_of_decomp : ∀ (a p b : List Char), hasSeg p (a ++ (p ++ b)) = true
  | [], p, b => hasSeg_head p (p ++ b) (leadsWith_self_append p b)
  | c :: a, p, b => hasSeg_cons c p (a ++ (p ++ b)) (hasSeg_of_decomp a p b)

theorem str_append_assoc (a b c : String) : (a ++ b) ++ c = a ++ (b ++ c) :=
  String.ext (by simp [String.data_append])

theorem str_append_empty (a : String) : a ++ "" = a :=
  String.ext (by simp [String.data_append])

theorem str_empty_append (a : String) : "" ++ a = a :=
  String.ext (by simp [String.data_append])

theorem hasSeg_of_eq (p s a b : String) (h : s = a ++ p ++ b) :
    hasSeg p.data s.data = true := by
  subst h
  rw [str_append_assoc, String.data_append]
  exact hasSeg_of_decomp a.data p.data b.data

theorem hasSeg_str_left (p s t : String) (h : hasSeg p.data s.data = true) :
    hasSeg p.data (s ++ t).data = true := by
  rw [String.data_append]
  exact hasSeg_append_left p.data s.data t.data h

theorem hasSeg_str_right (p s t : String) (h : hasSeg p.data t.data = true) :
    hasSeg p.data (s ++ t).data = true := by
  rw [String.data_append]
  exact hasSeg_append_right p.data s.data t.data h

theorem joinOr_head : ∀ (x : String) (xs : List String),
    ∃ t : String, joinOr (x :: xs) = x ++ t
  | x, [] => ⟨"", (str_append_empty x).symm⟩
  | x, y :: rest => ⟨" or " ++ joinOr (y :: rest), by rw [joinOr, str_append_assoc]⟩

theorem ambiguousPlanBase_names (conf : Conf) (mig dep : Migration) :
    hasSeg (migrationStr mig).data (ambiguousPlanBase conf mig dep).data = true
    ∧ hasSeg (migrationStr dep).data (ambiguousPlanBase conf mig dep).data = true
    ∧ hasSeg (migrationStr mig ++ " is " ++ originWord conf mig
        ++ " to be applied pre-deployment").data
        (ambiguousPlanBase conf mig dep).data = true
    ∧ hasSeg (migrationStr dep ++ " which is " ++ originWord conf dep
        ++ " to be applied post-deployment.").data
        (ambiguousPlanBase conf mig dep).data = true := by
  refine ⟨?_, ?_, ?_, ?_⟩
  · exact hasSeg_of_eq _ _
      "Plan contains a non-contiguous sequence of pre-deployment migrations. Migration "
      (" is " ++ originWord conf mig
        ++ " to be applied pre-deployment" ++ " but it depends on " ++ migrationStr dep
        ++ " which is " ++ originWord conf dep ++ " to be applied post-deployment.")
      (by simp only [ambiguousPlanBase, str_append_assoc])
  · exact hasSeg_of_eq _ _
      ("Plan contains a non-contiguous sequence of pre-deployment migrations. Migration "
        ++ migrationStr mig ++ " is " ++ originWord conf mig
        ++ " to be applied pre-deployment" ++ " but it depends on ")
      (" which is " ++ originWord conf dep ++ " to be applied post-deployment.")
      (by simp only [ambiguousPlanBase, str_append_assoc])
  · exact hasSeg_of_eq _ _
      "Plan contains a non-contiguous sequence of pre-deployment migrations. Migration "
      (" but it depends on " ++ migrationStr dep
        ++ " which is " ++ originWord conf dep ++ " to be applied post-deployment.")
      (by simp only [ambiguousPlanBase, str_append_assoc])
  · exact hasSeg_of_eq _ _
      ("Plan contains a non-contiguous sequence of pre-deployment migrations. Migration "
        ++ migrationStr mig ++ " is " ++ originWord conf mig
        ++ " to be applied pre-deployment" ++ " but it depends on ")
      ""
      (by simp only [ambiguousPlanBase, str_append_assoc, str_append_empty])

theorem ambiguousPlanMsg_base_decomp (conf : Conf) (mig dep : Migration) :
    ∃ t : String,
      ambiguousPlanMsg conf mig dep = ambiguousPlanBase conf mig dep ++ t := by
  unfold ambiguousPlanMsg ambiguousPlanMsg2 ambiguousPlanMsg1
  by_cases hI : (inferredList conf mig dep).isEmpty = true
  · rw [if_pos hI]
    exact ⟨"", (str_append_empty _).symm⟩
  · rw [if_neg hI]
    by_cases hT : (thirdsOf conf mig dep).isEmpty = true
    · rw [if_pos hT]
      by_cases hF : (firstsOf conf mig dep).isEmpty = true
      · rw [if_pos hF]
        exact ⟨bypassStr, rfl⟩
      · rw [if_neg hF]
        exact ⟨recFirstStr ++ joinOr (firstsOf conf mig dep) ++ " " ++ bypassStr,
          by simp only [str_append_assoc]⟩
    · rw [if_neg hT]
      by_cases hF : (firstsOf conf mig dep).isEmpty = true
      · rw [if_pos hF, if_pos hF]
        exact ⟨" Setting " ++ joinOr ((thirdsOf conf mig dep).map overrideItem)
            ++ " to an explicit `syzygy.Stage` " ++ bypassStr,
          by simp only [str_append_assoc]⟩
      · rw [if_neg hF, if_neg hF]
        exact ⟨recFirstStr ++ joinOr (firstsOf conf mig dep) ++ " " ++ "or setting "
            ++ joinOr ((thirdsOf conf mig dep).map overrideItem)
            ++ " to an explicit `syzygy.Stage` " ++ bypassStr,
          by simp only [str_append_assoc]⟩

theorem inferredList_ne_nil_of_mem {conf : Conf} {mig dep x : Migration}
    (hx : x ∈ inferredList conf mig dep) :
    ¬ ((inferredList conf mig dep).isEmpty = true) := by
  intro hI
  rw [List.isEmpty_iff] at hI
  rw [hI] at hx
  simp at hx

theorem ambiguousPlanMsg_rec_first (conf : Conf) (mig dep : Migration)
    (h : ∃ x ∈ inferredList conf mig dep, isThird conf x.app_label = false) :
    hasSeg recFirstStr.data (ambiguousPlanMsg conf mig dep).data = true := by
  obtain ⟨x, hx, hxf⟩ := h
  have hI := inferredList_ne_nil_of_mem hx
  have hmem : x ∈ (inferredList conf mig dep).filter
      (fun m => !(isThird conf m.app_label)) :=
    List.mem_filter.mpr ⟨hx, by simp [hxf]⟩
  have hmem2 : migrationStr x ∈ firstsOf conf mig dep :=
    List.mem_map_of_mem _ hmem
  have hF : ¬ ((firstsOf conf mig dep).isEmpty = true) := by
    rw [List.isEmpty_iff]
    exact List.ne_nil_of_mem hmem2
  unfold ambiguousPlanMsg ambiguousPlanMsg2 ambiguousPlanMsg1
  rw [if_neg hI]
  by_cases hT : (thirdsOf conf mig dep).isEmpty = true
  · rw [if_pos hT, if_neg hF]
    exact hasSeg_of_eq _ _ (ambiguousPlanBase conf mig dep)
      (joinOr (firstsOf conf mig dep) ++ " " ++ bypassStr)
      (by simp only [str_append_assoc])
  · rw [if_neg hT, if_neg hF, if_neg hF]
    exact hasSeg_of_eq _ _ (ambiguousPlanBase conf mig dep)
      (joinOr (firstsOf conf mig dep) ++ " " ++ "or setting "
        ++ joinOr ((thirdsOf conf mig dep).map overrideItem)
        ++ " to an explicit `syzygy.Stage` " ++ bypassStr)
      (by simp only [str_append_assoc])

theorem ambiguousPlanMsg_rec_third (conf : Conf) (mig dep : Migration)
    (h : ∃ x ∈ inferredList conf mig dep, isThird conf x.app_label = true) :
    hasSeg overrideKeyStr.data (ambiguousPlanMsg conf mig dep).data = true := by
  obtain ⟨x, hx, hxt⟩ := h
  have hI := inferredList_ne_nil_of_mem hx
  have hmem : x ∈ (inferredList conf mig dep).filter
      (fun m => isThird conf m.app_label) :=
    List.mem_filter.mpr ⟨hx, by simp [hxt]⟩
  have hmem2 : migrationStr x ∈ thirdsOf conf mig dep :=
    List.mem_map_of_mem _ hmem
  have hT : ¬ ((thirdsOf conf mig dep).isEmpty = true) := by
    rw [List.isEmpty_iff]
    exact List.ne_nil_of_mem hmem2
  obtain ⟨n0, rest, hthirds⟩ : ∃ n0 rest, thirdsOf conf mig dep = n0 :: rest := by
    cases hcase : thirdsOf conf mig dep with
    | nil =>
      rw [hcase] at hmem2
      simp at hmem2
    | cons a b => exact ⟨a, b, rfl⟩
  obtain ⟨t, hjoin⟩ := joinOr_head (overrideItem n0) (rest.map overrideItem)
  unfold ambiguousPlanMsg ambiguousPlanMsg2
  rw [if_neg hI, if_neg hT, hthirds, List.map_cons, hjoin]
  by_cases hF : (firstsOf conf mig dep).isEmpty = true
  · rw [if_pos hF]
    exact hasSeg_of_eq _ _ (ambiguousPlanMsg1 conf mig dep ++ " Setting ")
      (strRepr n0 ++ "]`" ++ t ++ " to an explicit `syzygy.Stage` " ++ bypassStr)
      (by simp only [overrideItem, overrideKeyStr, str_append_assoc])
  · rw [if_neg hF]
    exact hasSeg_of_eq _ _ (ambiguousPlanMsg1 conf mig dep ++ "or setting ")
      (strRepr n0 ++ "]`" ++ t ++ " to an explicit `syzygy.Stage` " ++ bypassStr)
      (by simp only [overrideItem, overrideKeyStr, str_append_assoc])

theorem inferStage_agree (conf : Conf) (mig : Migration) :
    ∀ (ops : List Operation) (s : Stage),
      (∀ op ∈ ops, get_operation_stage op = .ok s) →
      inferStage conf mig ops (some s) = .ok (some s)
  | [], _, _ => rfl
  | op :: rest, s, h => by
    have h0 := h op (List.mem_cons_self op rest)
    simp only [inferStage, h0, if_pos rfl]
    exact inferStage_agree conf mig rest s (fun o ho => h o (List.mem_cons_of_mem op ho))

theorem inferStage_mixed (conf : Conf) (mig : Migration) :
    ∀ (ops : List Operation) (s : Stage),
      (∀ op ∈ ops, exOk (get_operation_stage op) = true) →
      (∃ op ∈ ops, get_operation_stage op ≠ .ok s) →
      inferStage conf mig ops (some s)
        = match stageLookup conf.fallback mig with
          | some fb => .ok (some fb)
          | none => .error (.ambiguousStage (ambiguousStageMsg mig))
  | [], s, _, hex => by simp at hex
  | op :: rest, s, hok, hex => by
    have h0 := hok op (List.mem_cons_self op rest)
    obtain ⟨t, ht⟩ : ∃ t, get_operation_stage op = .ok t := by
      cases hcase : get_operation_stage op with
      | ok t => exact ⟨t, rfl⟩
      | error e =>
        rw [hcase] at h0
        simp [exOk] at h0
    simp only [inferStage, ht]
    by_cases hts : t = s
    · subst hts
      rw [if_pos rfl]
      apply inferStage_mixed conf mig rest t
        (fun o ho => hok o (List.mem_cons_of_mem op ho))
      obtain ⟨o2, ho2, hne⟩ := hex
      rcases List.mem_cons.mp ho2 with heq | ho2r
      · exact absurd (heq ▸ ht) hne
      · exact ⟨o2, ho2r, hne⟩
    · rw [if_neg hts]

/-- C4: `get_migration_stage` precedence: the explicit `stage` attribute wins
over the override mapping (keyed by `app_label.name` then `app_label`), which
wins over inference from operation stages; an empty operation list with no
defined stage resolves to `None`; agreeing operations resolve to their common
stage; disagreeing operations use the configured fallback when present and
otherwise raise `AmbiguousStage` naming the migration. -/
theorem C4_resolve_precedence (conf : Conf) (mig : Migration) :
    (∀ s, mig.stage = some s → get_migration_stage conf mig = .ok (some s))
    ∧ (∀ s, mig.stage = none → stageLookup conf.override mig = some s →
        get_migration_stage conf mig = .ok (some s))
    ∧ (_get_defined_stage conf mig = none → mig.operations = [] →
        get_migration_stage conf mig = .ok none)
    ∧ (∀ op0 rest s, _get_defined_stage conf mig = none →
        mig.operations = op0 :: rest →
        (∀ op ∈ mig.operations, get_operation_stage op = .ok s) →
        get_migration_stage conf mig = .ok (some s))
    ∧ (_get_defined_stage conf mig = none →
        (∀ op ∈ mig.operations, exOk (get_operation_stage op) = true) →
        (∃ op ∈ mig.operations, ∃ op2 ∈ mig.operations,
            get_operation_stage op ≠ get_operation_stage op2) →
        ((∀ fb, stageLookup conf.fallback mig = some fb →
            get_migration_stage conf mig = .ok (some fb))
          ∧ (stageLookup conf.fallback mig = none →
              get_migration_stage conf mig
                = .error (.ambiguousStage (ambiguousStageMsg mig))
              ∧ hasSeg (migrationStr mig).data (ambiguousStageMsg mig).data
                  = true))) := by
  refine ⟨?_, ?_, ?_, ?_, ?_⟩
  · intro s h
    simp [get_migration_stage, _get_defined_stage, firstSome, h]
  · intro s h1 h2
    simp [get_migration_stage, _get_defined_stage, firstSome, h1, h2]
  · intro hd hops
    simp [get_migration_stage, hd, hops, inferStage]
  · intro op0 rest s hd hops hall
    have h0 := hall op0 (by rw [hops]; exact List.mem_cons_self op0 rest)
    simp only [get_migration_stage, hd, hops, inferStage, h0]
    exact inferStage_agree conf mig rest s
      (fun o ho => hall o (by rw [hops]; exact List.mem_cons_of_mem op0 ho))
  · intro hd hok hex
    obtain ⟨a, ha, b, hb, hne⟩ := hex
    obtain ⟨op0, rest, hops⟩ : ∃ op0 rest, mig.operations = op0 :: rest := by
      cases hcase : mig.operations with
      | nil =>
        rw [hcase] at ha
        simp at ha
      | cons x xs => exact ⟨x, xs, rfl⟩
    obtain ⟨s0, hs0⟩ : ∃ s0, get_operation_stage op0 = .ok s0 := by
      have h0 := hok op0 (by rw [hops]; exact List.mem_cons_self op0 rest)
      cases hcase : get_operation_stage op0 with
      | ok t => exact ⟨t, rfl⟩
      | error e =>
        rw [hcase] at h0
        simp [exOk] at h0
    obtain ⟨sa, hsa⟩ : ∃ sa, get_operation_stage a = .ok sa := by
      have h0 := hok a ha
      cases hcase : get_operation_stage a with
      | ok t => exact ⟨t, rfl⟩
      | error e =>
        rw [hcase] at h0
        simp [exOk] at h0
    obtain ⟨sb, hsb⟩ : ∃ sb, get_operation_stage b = .ok sb := by
      have h0 := hok b hb
      cases hcase : get_operation_stage b with
      | ok t => exact ⟨t, rfl⟩
      | error e =>
        rw [hcase] at h0
        simp [exOk] at h0
    have hdiff : ∃ o ∈ mig.operations, get_operation_stage o ≠ .ok s0 := by
      by_cases hcs : sa = s0
      · refine ⟨b, hb, ?_⟩
        rw [hsb]
        intro hbeq
        apply hne
        rw [hsa, hsb, hcs]
        rw [Except.ok.injEq] at hbeq
        rw [hbeq]
      · refine ⟨a, ha, ?_⟩
        rw [hsa]
        intro haeq
        rw [Except.ok.injEq] at haeq
        exact hcs haeq
    have hdiff2 : ∃ o ∈ rest, get_operation_stage o ≠ .ok s0 := by
      obtain ⟨o, ho, honeq⟩ := hdiff
      rw [hops] at ho
      rcases List.mem_cons.mp ho with heq | hor
      · exact absurd (heq ▸ hs0) honeq
      · exact ⟨o, hor, honeq⟩
    have hmain : get_migration_stage conf mig
        = match stageLookup conf.fallback mig with
          | some fb => .ok (some fb)
          | none => .error (.ambiguousStage (ambiguousStageMsg mig)) := by
      simp only [get_migration_stage, hd, hops, inferStage, hs0]
      exact inferStage_mixed conf mig rest s0
        (fun o ho => hok o (by rw [hops]; exact List.mem_cons_of_mem op0 ho)) hdiff2
    constructor
    · intro fb hfb
      rw [hmain, hfb]
    · intro hfb
      rw [hmain, hfb]
      refine ⟨rfl, ?_⟩
      exact hasSeg_of_eq _ _ "Cannot automatically determine stage of " "."
        (by simp only [ambiguousStageMsg, str_append_assoc])

/-- C4 witness: each precedence branch exercised at a concrete input: explicit
attribute, override lookup, empty operations, agreeing operations, and
disagreeing operations with and without a fallback. -/
theorem C4_resolve_precedence_witness :
    ((Migration.mk "a" "m" (some Stage.preDeploy) [] []).stage = some Stage.preDeploy
      ∧ get_migration_stage (Conf.mk [("a.m", Stage.postDeploy)] [] [])
          (Migration.mk "a" "m" (some Stage.preDeploy) [] []) = .ok (some Stage.preDeploy))
    ∧ ((Migration.mk "a" "m" none [] []).stage = none
      ∧ stageLookup (Conf.mk [("a.m", Stage.postDeploy)] [] []).override
          (Migration.mk "a" "m" none [] []) = some Stage.postDeploy
      ∧ get_migration_stage (Conf.mk [("a.m", Stage.postDeploy)] [] [])
          (Migration.mk "a" "m" none [] []) = .ok (some Stage.postDeploy))
    ∧ (_get_defined_stage (Conf.mk [] [] []) (Migration.mk "b" "n" none [] []) = none
      ∧ get_migration_stage (Conf.mk [] [] []) (Migration.mk "b" "n" none [] [])
          = .ok none)
    ∧ (get_migration_stage (Conf.mk [] [] [])
        (Migration.mk "b" "n" none [Operation.mk 0 OpKind.deleteModel none] [])
          = .ok (some Stage.postDeploy))
    ∧ (get_migration_stage (Conf.mk [] [("b", Stage.preDeploy)] [])
        (Migration.mk "b" "n" none
          [Operation.mk 0 OpKind.deleteModel none, Operation.mk 1 OpKind.addField none] [])
          = .ok (some Stage.preDeploy))
    ∧ (get_migration_stage (Conf.mk [] [] [])
        (Migration.mk "b" "n" none
          [Operation.mk 0 OpKind.deleteModel none, Operation.mk 1 OpKind.addField none] [])
          = .error (.ambiguousStage (ambiguousStageMsg
              (Migration.mk "b" "n" none
                [Operation.mk 0 OpKind.deleteModel none,
                  Operation.mk 1 OpKind.addField none] [])))) := by
  refine ⟨⟨rfl, ?_⟩, ⟨rfl, by decide, ?_⟩, ⟨by decide, ?_⟩, ?_, ?_, ?_⟩
  · exact (C4_resolve_precedence _ _).1 Stage.preDeploy rfl
  · exact (C4_resolve_precedence _ _).2.1 Stage.postDeploy rfl (by decide)
  · exact (C4_resolve_precedence _ _).2.2.1 (by decide) rfl
  · exact (C4_resolve_precedence _ _).2.2.2.1 (Operation.mk 0 OpKind.deleteModel none)
      [] Stage.postDeploy (by decide) rfl (by decide)
  · exact ((C4_resolve_precedence _ _).2.2.2.2 (by decide) (by decide)
      (by decide)).1 Stage.preDeploy (by decide)
  · exact (((C4_resolve_precedence _ _).2.2.2.2 (by decide) (by decide)
      (by decide)).2 (by decide)).1

theorem preDeployAux_ok (conf : Conf) :
    ∀ (plan pre : List (Migration × Bool))
      (post : List ((String × String) × Migration)),
      (∀ e ∈ plan, exOk (must_post_deploy_migration conf e.1 e.2) = true) →
      planConflictAux conf plan post = false →
      preDeployAux conf plan pre post
        = .ok (pre ++ plan.filter (fun e =>
            ((must_post_deploy_migration conf e.1 e.2).toOption == some (some false))
            || ((must_post_deploy_migration conf e.1 e.2).toOption == some none)))
  | [], pre, post, _, _ => by simp [preDeployAux]
  | (mig, b) :: rest, pre, post, hok, hcf => by
    have h0 := hok (mig, b) (List.mem_cons_self _ _)
    obtain ⟨r, hr⟩ : ∃ r, must_post_deploy_migration conf mig b = .ok r := by
      cases hcase : must_post_deploy_migration conf mig b with
      | ok t => exact ⟨t, rfl⟩
      | error e =>
        rw [hcase] at h0
        simp [exOk] at h0
    simp only [planConflictAux, hr] at hcf
    have hoktl : ∀ e ∈ rest, exOk (must_post_deploy_migration conf e.1 e.2) = true :=
      fun e he => hok e (List.mem_cons_of_mem _ he)
    rcases r with - | b2
    · simp only at hcf
      cases hfd : findPostDep post mig with
      | some d =>
        rw [hfd] at hcf
        simp at hcf
      | none =>
        rw [hfd] at hcf
        simp only [Option.isSome_none, Bool.false_eq_true, if_false] at hcf
        simp only [preDeployAux, hr]
        rw [if_neg (by simp), hfd]
        rw [preDeployAux_ok conf rest (pre ++ [(mig, b)]) post hoktl hcf]
        rw [List.filter_cons_of_pos (by simp [hr, Except.toOption])]
        simp
    · rcases b2 with - | -
      · simp only at hcf
        cases hfd : findPostDep post mig with
        | some d =>
          rw [hfd] at hcf
          simp at hcf
        | none =>
          rw [hfd] at hcf
          simp only [Option.isSome_none, Bool.false_eq_true, if_false] at hcf
          simp only [preDeployAux, hr]
          rw [if_neg (by simp), hfd]
          rw [preDeployAux_ok conf rest (pre ++ [(mig, b)]) post hoktl hcf]
          rw [List.filter_cons_of_pos (by simp [hr, Except.toOption])]
          simp
      · simp only at hcf
        simp only [preDeployAux, hr]
        rw [if_pos trivial]
        rw [preDeployAux_ok conf rest pre
          (((mig.app_label, mig.name), mig) :: post) hoktl hcf]
        rw [List.filter_cons_of_neg (by simp [hr, Except.toOption])]

theorem preDeployAux_conflict (conf : Conf) :
    ∀ (plan pre : List (Migration × Bool))
      (post : List ((String × String) × Migration)),
      (∀ e ∈ plan, exOk (must_post_deploy_migration conf e.1 e.2) = true) →
      planConflictAux conf plan post = true →
      ∃ mig dep, preDeployAux conf plan pre post
          = .error (.ambiguousPlan (ambiguousPlanMsg conf mig dep))
  | [], _, _, _, hcf => by simp [planConflictAux] at hcf
  | (mig, b) :: rest, pre, post, hok, hcf => by
    have h0 := hok (mig, b) (List.mem_cons_self _ _)
    obtain ⟨r, hr⟩ : ∃ r, must_post_deploy_migration conf mig b = .ok r := by
      cases hcase : must_post_deploy_migration conf mig b with
      | ok t => exact ⟨t, rfl⟩
      | error e =>
        rw [hcase] at h0
        simp [exOk] at h0
    simp only [planConflictAux, hr] at hcf
    have hoktl : ∀ e ∈ rest, exOk (must_post_deploy_migration conf e.1 e.2) = true :=
      fun e he => hok e (List.mem_cons_of_mem _ he)
    rcases r with - | b2
    · simp only at hcf
      cases hfd : findPostDep post mig with
      | some d =>
        refine ⟨mig, d, ?_⟩
        simp only [preDeployAux, hr]
        rw [if_neg (by simp), hfd]
      | none =>
        rw [hfd] at hcf
        simp only [Option.isSome_none, Bool.false_eq_true, if_false] at hcf
        obtain ⟨m2, d2, hres⟩ :=
          preDeployAux_conflict conf rest (pre ++ [(mig, b)]) post hoktl hcf
        refine ⟨m2, d2, ?_⟩
        simp only [preDeployAux, hr]
        rw [if_neg (by simp), hfd]
        exact hres
    · rcases b2 with - | -
      · simp only at hcf
        cases hfd : findPostDep post mig with
        | some d =>
          refine ⟨mig, d, ?_⟩
          simp only [preDeployAux, hr]
          rw [if_neg (by simp), hfd]
        | none =>
          rw [hfd] at hcf
          simp only [Option.isSome_none, Bool.false_eq_true, if_false] at hcf
          obtain ⟨m2, d2, hres⟩ :=
            preDeployAux_conflict conf rest (pre ++ [(mig, b)]) post hoktl hcf
          refine ⟨m2, d2, ?_⟩
          simp only [preDeployAux, hr]
          rw [if_neg (by simp), hfd]
          exact hres
      · simp only at hcf
        obtain ⟨m2, d2, hres⟩ := preDeployAux_conflict conf rest pre
          (((mig.app_label, mig.name), mig) :: post) hoktl hcf
        refine ⟨m2, d2, ?_⟩
        simp only [preDeployAux, hr]
        rw [if_pos trivial]
        exact hres

/-- C1: when stage resolution succeeds on every entry and no prefix-eligible
entry directly depends on an earlier entry that must run post-deploy,
`get_pre_deploy_plan` returns exactly the subsequence, in plan order, of the
entries whose `must_post_deploy_migration` is `False` or `None` — every entry
that must post-deploy is excluded. -/
theorem C1_pre_deploy_plan_is_filter (conf : Conf) (plan : List (Migration × Bool))
    (h1 : ∀ e ∈ plan, exOk (must_post_deploy_migration conf e.1 e.2) = true)
    (h2 : planConflict conf plan = false) :
    get_pre_deploy_plan conf plan
      = .ok (plan.filter (fun e =>
          ((must_post_deploy_migration conf e.1 e.2).toOption == some (some false))
          || ((must_post_deploy_migration conf e.1 e.2).toOption == some none))) := by
  have h := preDeployAux_ok conf plan [] [] h1 h2
  simpa [get_pre_deploy_plan] using h

/-- C1 witness: explicit pre-deploy, post-deploy and null-stage migrations with
no dependencies. -/
theorem C1_pre_deploy_plan_is_filter_witness :
    ((∀ e ∈ [((Migration.mk "t" "0001" (some Stage.preDeploy) [] []), false),
            ((Migration.mk "t" "0002" (some Stage.postDeploy) [] []), false),
            ((Migration.mk "t" "0003" none [] []), false)],
        exOk (must_post_deploy_migration (Conf.mk [] [] []) e.1 e.2) = true)
      ∧ planConflict (Conf.mk [] [] [])
          [((Migration.mk "t" "0001" (some Stage.preDeploy) [] []), false),
            ((Migration.mk "t" "0002" (some Stage.postDeploy) [] []), false),
            ((Migration.mk "t" "0003" none [] []), false)] = false)
    ∧ get_pre_deploy_plan (Conf.mk [] [] [])
        [((Migration.mk "t" "0001" (some Stage.preDeploy) [] []), false),
          ((Migration.mk "t" "0002" (some Stage.postDeploy) [] []), false),
          ((Migration.mk "t" "0003" none [] []), false)]
      = .ok ([((Migration.mk "t" "0001" (some Stage.preDeploy) [] []), false),
          ((Migration.mk "t" "0002" (some Stage.postDeploy) [] []), false),
          ((Migration.mk "t" "0003" none [] []), false)].filter (fun e =>
            ((must_post_deploy_migration (Conf.mk [] [] []) e.1 e.2).toOption
              == some (some false))
            || ((must_post_deploy_migration (Conf.mk [] [] []) e.1 e.2).toOption
              == some none))) :=
  ⟨⟨by decide, by decide⟩,
    C1_pre_deploy_plan_is_filter (Conf.mk [] [] []) _ (by decide) (by decide)⟩

/-- C2: `get_pre_deploy_plan` raises `AmbiguousPlan` exactly when, walking the
plan in order, a prefix-eligible entry has a direct dependency on a previously
encountered entry that must run post-deploy; the diagnostic names both
migrations, states for each whether its stage was defined or inferred, and,
for inferred stages, recommends an explicit `Migration.stage` for first-party
migrations and the `MIGRATION_STAGES_OVERRIDE` mapping for third-party
ones. -/
theorem C2_ambiguous_plan_diagnostic (conf : Conf) (plan : List (Migration × Bool))
    (h1 : ∀ e ∈ plan, exOk (must_post_deploy_migration conf e.1 e.2) = true) :
    ((∃ m, get_pre_deploy_plan conf plan = .error (.ambiguousPlan m))
        ↔ planConflict conf plan = true)
    ∧ ∀ m, get_pre_deploy_plan conf plan = .error (.ambiguousPlan m) →
        ∃ mig dep, m = ambiguousPlanMsg conf mig dep
          ∧ hasSeg (migrationStr mig).data m.data = true
          ∧ hasSeg (migrationStr dep).data m.data = true
          ∧ hasSeg (migrationStr mig ++ " is " ++ originWord conf mig
              ++ " to be applied pre-deployment").data m.data = true
          ∧ hasSeg (migrationStr dep ++ " which is " ++ originWord conf dep
              ++ " to be applied post-deployment.").data m.data = true
          ∧ ((∃ x ∈ inferredList conf mig dep, isThird conf x.app_label = false) →
              hasSeg recFirstStr.data m.data = true)
          ∧ ((∃ x ∈ inferredList conf mig dep, isThird conf x.app_label = true) →
              hasSeg overrideKeyStr.data m.data = true) := by
  have hiff : (∃ m, get_pre_deploy_plan conf plan = .error (.ambiguousPlan m))
      ↔ planConflict conf plan = true := by
    constructor
    · rintro ⟨m, hm⟩
      by_contra hpc
      have hfalse : planConflict conf plan = false := by
        cases hcase : planConflict conf plan
        · rfl
        · exact absurd hcase hpc
      have hok := preDeployAux_ok conf plan [] [] h1 hfalse
      unfold get_pre_deploy_plan at hm
      rw [hok] at hm
      simp at hm
    · intro hpc
      obtain ⟨mig, dep, h⟩ := preDeployAux_conflict conf plan [] [] h1 hpc
      exact ⟨_, h⟩
  refine ⟨hiff, ?_⟩
  intro m hm
  have hpc : planConflict conf plan = true := hiff.mp ⟨m, hm⟩
  obtain ⟨mig, dep, herr⟩ := preDeployAux_conflict conf plan [] [] h1 hpc
  unfold get_pre_deploy_plan at hm
  rw [herr] at hm
  have hmm : m = ambiguousPlanMsg conf mig dep := by
    simp only [Except.error.injEq, Err.ambiguousPlan.injEq] at hm
    exact hm.symm
  subst hmm
  obtain ⟨t, hdec⟩ := ambiguousPlanMsg_base_decomp conf mig dep
  have hbase := ambiguousPlanBase_names conf mig dep
  refine ⟨mig, dep, rfl, ?_, ?_, ?_, ?_,
    ambiguousPlanMsg_rec_first conf mig dep,
    ambiguousPlanMsg_rec_third conf mig dep⟩
  · rw [hdec]
    exact hasSeg_str_left _ _ _ hbase.1
  · rw [hdec]
    exact hasSeg_str_left _ _ _ hbase.2.1
  · rw [hdec]
    exact hasSeg_str_left _ _ _ hbase.2.2.1
  · rw [hdec]
    exact hasSeg_str_left _ _ _ hbase.2.2.2

/-- C2 witness: a pre-deploy migration depending on an earlier post-deploy
migration. -/
theorem C2_ambiguous_plan_diagnostic_witness :
    (∀ e ∈ [((Migration.mk "tests" "0001" (some Stage.preDeploy) [] []), false),
            ((Migration.mk "tests" "0002" (some Stage.postDeploy) [] []), false),
            ((Migration.mk "other" "0001" (some Stage.preDeploy) []
                [("tests", "0002")]), false)],
        exOk (must_post_deploy_migration (Conf.mk [] [] []) e.1 e.2) = true)
    ∧ (((∃ m, get_pre_deploy_plan (Conf.mk [] [] [])
            [((Migration.mk "tests" "0001" (some Stage.preDeploy) [] []), false),
              ((Migration.mk "tests" "0002" (some Stage.postDeploy) [] []), false),
              ((Migration.mk "other" "0001" (some Stage.preDeploy) []
                  [("tests", "0002")]), false)]
            = .error (.ambiguousPlan m))
        ↔ planConflict (Conf.mk [] [] [])
            [((Migration.mk "tests" "0001" (some Stage.preDeploy) [] []), false),
              ((Migration.mk "tests" "0002" (some Stage.postDeploy) [] []), false),
              ((Migration.mk "other" "0001" (some Stage.preDeploy) []
                  [("tests", "0002")]), false)] = true)
      ∧ ∀ m, get_pre_deploy_plan (Conf.mk [] [] [])
            [((Migration.mk "tests" "0001" (some Stage.preDeploy) [] []), false),
              ((Migration.mk "tests" "0002" (some Stage.postDeploy) [] []), false),
              ((Migration.mk "other" "0001" (some Stage.preDeploy) []
                  [("tests", "0002")]), false)]
            = .error (.ambiguousPlan m) →
          ∃ mig dep, m = ambiguousPlanMsg (Conf.mk [] [] []) mig dep
            ∧ hasSeg (migrationStr mig).data m.data = true
            ∧ hasSeg (migrationStr dep).data m.data = true
            ∧ hasSeg (migrationStr mig ++ " is "
                ++ originWord (Conf.mk [] [] []) mig
                ++ " to be applied pre-deployment").data m.data = true
            ∧ hasSeg (migrationStr dep ++ " which is "
                ++ originWord (Conf.mk [] [] []) dep
                ++ " to be applied post-deployment.").data m.data = true
            ∧ ((∃ x ∈ inferredList (Conf.mk [] [] []) mig dep,
                  isThird (Conf.mk [] [] []) x.app_label = false) →
                hasSeg recFirstStr.data m.data = true)
            ∧ ((∃ x ∈ inferredList (Conf.mk [] [] []) mig dep,
                  isThird (Conf.mk [] [] []) x.app_label = true) →
                hasSeg overrideKeyStr.data m.data = true)) :=
  ⟨by decide, C2_ambiguous_plan_diagnostic (Conf.mk [] [] []) _ (by decide)⟩

theorem split_at_first (c : Char) :
    ∀ (u v a b : List Char), c ∉ u → c ∉ v → u ++ c :: a = v ++ c :: b →
      u = v ∧ a = b
  | [], [], a, b, _, _, h => ⟨rfl, by simpa using h⟩
  | [], x :: v, a, b, _, hv, h => by
    simp only [List.nil_append, List.cons_append, List.cons.injEq] at h
    exact absurd (h.1 ▸ List.mem_cons_self x v) hv
  | x :: u, [], a, b, hu, _, h => by
    simp only [List.nil_append, List.cons_append, List.cons.injEq] at h
    exact absurd (h.1.symm ▸ List.mem_cons_self x u) hu
  | x :: u, y :: v, a, b, hu, hv, h => by
    simp only [List.cons_append, List.cons.injEq] at h
    have hu2 : c ∉ u := fun hc => hu (List.mem_cons_of_mem x hc)
    have hv2 : c ∉ v := fun hc => hv (List.mem_cons_of_mem y hc)
    obtain ⟨h1, h2⟩ := split_at_first c u v a b hu2 hv2 h.2
    exact ⟨by rw [h.1, h1], h2⟩

theorem planEntryStr_data (e : Migration × Bool) :
    (planEntryStr e).data
      = e.1.app_label.data
          ++ ('.' :: (e.1.name.data ++ (':' :: (boolStr e.2).data))) := by
  have h1 : ("." : String).data = ['.'] := rfl
  have h2 : (":" : String).data = [':'] := rfl
  simp [planEntryStr, migrationStr, String.data_append, h1, h2]

theorem planEntryStr_no_semi (e : Migration × Bool) (h : migOk e.1) :
    ';' ∉ (planEntryStr e).data := by
  rw [planEntryStr_data]
  intro hmem
  rcases List.mem_append.mp hmem with hmem | hmem
  · exact h.1.1 hmem
  · rcases List.mem_cons.mp hmem with hmem | hmem
    · simp at hmem
    · rcases List.mem_append.mp hmem with hmem | hmem
      · exact h.2.1 hmem
      · rcases List.mem_cons.mp hmem with hmem | hmem
        · simp at hmem
        · cases hb : e.2 <;> rw [hb] at hmem <;> simp [boolStr] at hmem

theorem planEntryStr_ne_nil (e : Migration × Bool) :
    (planEntryStr e).data ≠ [] := by
  rw [planEntryStr_data]
  intro hnil
  have := List.append_eq_nil.mp hnil
  simp at this

theorem planEntryStr_ident (e f : Migration × Bool) (he : migOk e.1) (hf : migOk f.1)
    (h : planEntryStr e = planEntryStr f) : entryIdent e = entryIdent f := by
  have hd : (planEntryStr e).data = (planEntryStr f).data := by rw [h]
  rw [planEntryStr_data, planEntryStr_data] at hd
  obtain ⟨happ, hrest⟩ :=
    split_at_first '.' e.1.app_label.data f.1.app_label.data _ _ he.1.2.2 hf.1.2.2 hd
  obtain ⟨hname, hbool⟩ :=
    split_at_first ':' e.1.name.data f.1.name.data _ _ he.2.2 hf.2.2 hrest
  have happ2 : e.1.app_label = f.1.app_label := String.ext happ
  have hname2 : e.1.name = f.1.name := String.ext hname
  have hdir : e.2 = f.2 := by
    cases hb1 : e.2 <;> cases hb2 : f.2 <;>
      rw [hb1, hb2] at hbool <;> simp [boolStr] at hbool
  simp [entryIdent, happ2, hname2, hdir]

theorem joinSemicolon_cons2 (x y : String) (rest : List String) :
    (joinSemicolon (x :: y :: rest)).data
      = x.data ++ (';' :: (joinSemicolon (y :: rest)).data) := by
  have h1 : (";" : String).data = [';'] := rfl
  simp [joinSemicolon, String.data_append, h1]

theorem joinSemicolon_inj :
    ∀ (xs ys : List String),
      (∀ x ∈ xs, ';' ∉ x.data ∧ x.data ≠ []) →
      (∀ y ∈ ys, ';' ∉ y.data ∧ y.data ≠ []) →
      joinSemicolon xs = joinSemicolon ys → xs = ys
  | [], [], _, _, _ => rfl
  | [], y :: ys, _, hy, h => by
    have hyp := hy y (List.mem_cons_self y ys)
    cases ys with
    | nil =>
      exact absurd (congrArg String.data h.symm) (by simpa using hyp.2)
    | cons y2 rest =>
      have hd := congrArg String.data h
      rw [joinSemicolon_cons2] at hd
      have : (joinSemicolon ([] : List String)).data = [] := rfl
      rw [this] at hd
      exact absurd hd.symm (by simp)
  | x :: xs, [], hx, _, h => by
    have hxp := hx x (List.mem_cons_self x xs)
    cases xs with
    | nil =>
      exact absurd (congrArg String.data h) (by simpa using hxp.2)
    | cons x2 rest =>
      have hd := congrArg String.data h
      rw [joinSemicolon_cons2] at hd
      have : (joinSemicolon ([] : List String)).data = [] := rfl
      rw [this] at hd
      exact absurd hd (by simp)
  | x :: xs, y :: ys, hx, hy, h => by
    have hxp := hx x (List.mem_cons_self x xs)
    have hyp := hy y (List.mem_cons_self y ys)
    cases xs with
    | nil =>
      cases ys with
      | nil =>
        have : x = y := by simpa [joinSemicolon] using h
        rw [this]
      | cons y2 rest =>
        have hd := congrArg String.data h
        rw [joinSemicolon_cons2] at hd
        have hxd : (joinSemicolon [x]).data = x.data := rfl
        rw [hxd] at hd
        have : ';' ∈ x.data := by
          rw [hd]
          exact List.mem_append_right _ (List.mem_cons_self _ _)
        exact absurd this hxp.1
    | cons x2 rest =>
      cases ys with
      | nil =>
        have hd := congrArg String.data h
        rw [joinSemicolon_cons2] at hd
        have hyd : (joinSemicolon [y]).data = y.data := rfl
        rw [hyd] at hd
        have : ';' ∈ y.data := by
          rw [← hd]
          exact List.mem_append_right _ (List.mem_cons_self _ _)
        exact absurd this hyp.1
      | cons y2 rest2 =>
        have hd := congrArg String.data h
        rw [joinSemicolon_cons2, joinSemicolon_cons2] at hd
        obtain ⟨h1, h2⟩ := split_at_first ';' x.data y.data _ _ hxp.1 hyp.1 hd
        have hxy : x = y := String.ext h1
        have htl : joinSemicolon (x2 :: rest) = joinSemicolon (y2 :: rest2) :=
          String.ext h2
        have := joinSemicolon_inj (x2 :: rest) (y2 :: rest2)
          (fun a ha => hx a (List.mem_cons_of_mem x ha))
          (fun a ha => hy a (List.mem_cons_of_mem y ha)) htl
        rw [hxy, this]

theorem planEntryStr_congr (e f : Migration × Bool) (h : entryIdent e = entryIdent f) :
    planEntryStr e = planEntryStr f := by
  simp only [entryIdent, Prod.mk.injEq] at h
  simp [planEntryStr, migrationStr, h.1.1, h.1.2, h.2]

theorem map_planEntryStr_eq_of_ident :
    ∀ (p q : List (Migration × Bool)),
      p.map entryIdent = q.map entryIdent →
      p.map planEntryStr = q.map planEntryStr
  | [], [], _ => rfl
  | [], _ :: _, h => by simp at h
  | _ :: _, [], h => by simp at h
  | e :: p, f :: q, h => by
    simp only [List.map_cons, List.cons.injEq] at h ⊢
    exact ⟨planEntryStr_congr e f h.1, map_planEntryStr_eq_of_ident p q h.2⟩

theorem map_ident_eq_of_entryStr :
    ∀ (p q : List (Migration × Bool)),
      (∀ e ∈ p, migOk e.1) → (∀ e ∈ q, migOk e.1) →
      p.map planEntryStr = q.map planEntryStr →
      p.map entryIdent = q.map entryIdent
  | [], [], _, _, _ => rfl
  | [], _ :: _, _, _, h => by simp at h
  | _ :: _, [], _, _, h => by simp at h
  | e :: p, f :: q, hp, hq, h => by
    simp only [List.map_cons, List.cons.injEq] at h ⊢
    refine ⟨planEntryStr_ident e f (hp e (List.mem_cons_self e p))
      (hq f (List.mem_cons_self f q)) h.1, ?_⟩
    exact map_ident_eq_of_entryStr p q
      (fun a ha => hp a (List.mem_cons_of_mem e ha))
      (fun a ha => hq a (List.mem_cons_of_mem f ha)) h.2

theorem planEncoding_ident (p q : List (Migration × Bool))
    (hp : ∀ e ∈ p, migOk e.1) (hq : ∀ e ∈ q, migOk e.1) :
    planEncoding p = planEncoding q ↔ p.map entryIdent = q.map entryIdent := by
  constructor
  · intro h
    refine map_ident_eq_of_entryStr p q hp hq ?_
    refine joinSemicolon_inj (p.map planEntryStr) (q.map planEntryStr) ?_ ?_ h
    · intro x hx
      obtain ⟨e, he, rfl⟩ := List.mem_map.mp hx
      exact ⟨planEntryStr_no_semi e (hp e he), planEntryStr_ne_nil e⟩
    · intro x hx
      obtain ⟨e, he, rfl⟩ := List.mem_map.mp hx
      exact ⟨planEntryStr_no_semi e (hq e he), planEntryStr_ne_nil e⟩
  · intro h
    unfold planEncoding
    rw [map_planEntryStr_eq_of_ident p q h]

/-- C9: `hash_plan` (the digest `h` applied to the `;`-joined
`migration:backward` encoding) is a function of exactly the ordered sequence of
(migration identity, direction) pairs: for any collision-free digest and plans
whose identifiers hold no separator characters, two plans hash identically if
and only if their (app_label, name, direction) sequences are identical — so
identical plans agree, while reordering entries, reversing a direction flag,
or renaming a migration each change the hash. -/
theorem C9_hash_plan_identity (h : String → String) (hinj : Function.Injective h)
    (p q : List (Migration × Bool))
    (hp : ∀ e ∈ p, migOk e.1) (hq : ∀ e ∈ q, migOk e.1) :
    hash_plan h p = hash_plan h q ↔ p.map entryIdent = q.map entryIdent := by
  unfold hash_plan
  constructor
  · intro he
    exact (planEncoding_ident p q hp hq).mp (hinj he)
  · intro he
    exact congrArg h ((planEncoding_ident p q hp hq).mpr he)

/-- C9 witness: the identity digest on two one-entry plans differing only in
direction. -/
theorem C9_hash_plan_identity_witness :
    (Function.Injective (fun s : String => s)
      ∧ (∀ e ∈ [((Migration.mk "tests" "0001" none [] []), false)], migOk e.1)
      ∧ (∀ e ∈ [((Migration.mk "tests" "0001" none [] []), true)], migOk e.1))
    ∧ (hash_plan (fun s : String => s)
          [((Migration.mk "tests" "0001" none [] []), false)]
        = hash_plan (fun s : String => s)
          [((Migration.mk "tests" "0001" none [] []), true)]
      ↔ [((Migration.mk "tests" "0001" none [] []), false)].map entryIdent
        = [((Migration.mk "tests" "0001" none [] []), true)].map entryIdent) :=
  ⟨⟨fun _ _ hh => hh, by decide, by decide⟩,
    C9_hash_plan_identity (fun s => s) (fun _ _ hh => hh) _ _ (by decide) (by decide)⟩
